import Mathlib

/-!
Verification development for the Code Preserve Translator engine.

Texts are modelled as `List Char` (JavaScript strings over the BMP; the
inputs handled here are ASCII, where one `Char` is one UTF-16 code unit)
or as Lean `String`s.  Timestamps are `Int` (JS millisecond clocks).
Each definition is a direct translation of the corresponding function of
the source; fidelity notes are given in the doc comments.
-/

/-- JS `\s` whitespace, restricted to the code points that occur in this
development (space, tab, newline, carriage return, vertical tab, form
feed, no-break space). -/
def isJsWs (c : Char) : Bool :=
  c == ' ' || c == '\t' || c == '\n' || c == '\r' ||
  c == '\x0b' || c == '\x0c' || c == '\xa0'

/-- JS `\w`: `[A-Za-z0-9_]`. -/
def isWordChar (c : Char) : Bool :=
  ('a' ≤ c && c ≤ 'z') || ('A' ≤ c && c ≤ 'Z') || ('0' ≤ c && c ≤ '9') || c == '_'

/-! ## Chunker (`splitTextIntoChunks`, src/src/utils/helpers.ts lines 117-162) -/

/-- Index of the last occurrence of `c` in `l`, if any. -/
def lastIdxOf (c : Char) (l : List Char) : Option Nat :=
  match l with
  | [] => none
  | d :: rest =>
    match lastIdxOf c rest with
    | some j => some (j + 1)
    | none => if d == c then some 0 else none

/-- `text.split(/\n\s*\n/)`: a separator is a newline, a greedy run of
whitespace, and a final newline; the regex backtracks `\s*` to the last
newline inside the whitespace run following the opening newline. -/
def splitParagraphsAux : Nat → List Char → List Char → List (List Char)
  | _, [], acc => [acc.reverse]
  | 0, _, acc => [acc.reverse]
  | fuel + 1, c :: rest, acc =>
    if c == '\n' then
      match lastIdxOf '\n' (rest.takeWhile isJsWs) with
      | some j => acc.reverse :: splitParagraphsAux fuel (rest.drop (j + 1)) []
      | none => splitParagraphsAux fuel rest (c :: acc)
    else
      splitParagraphsAux fuel rest (c :: acc)

/-- `text.split(/\n\s*\n/)` (the fuel `s.length + 1` bounds the recursion
depth; every step consumes at least one character). -/
def splitParagraphs (s : List Char) : List (List Char) :=
  splitParagraphsAux (s.length + 1) s []

/-- `paragraph.split(/(?<=[.!?])\s+/)`: split at each maximal whitespace
run that is preceded by `.`, `!` or `?`; the lookbehind consumes
nothing. -/
def splitSentencesAux : Nat → Option Char → List Char → List Char → List (List Char)
  | _, _, [], acc => [acc.reverse]
  | 0, _, _, acc => [acc.reverse]
  | fuel + 1, prev, c :: rest, acc =>
    if isJsWs c && (prev == some '.' || prev == some '!' || prev == some '?') then
      acc.reverse :: splitSentencesAux fuel (some c) (rest.dropWhile isJsWs) []
    else
      splitSentencesAux fuel (some c) rest (c :: acc)

/-- `paragraph.split(/(?<=[.!?])\s+/)` (the fuel `s.length + 1` bounds the
recursion depth; every step consumes at least one character). -/
def splitSentences (s : List Char) : List (List Char) :=
  splitSentencesAux (s.length + 1) none s []

/-- The last-resort hard cut: `substring(0, maxChunkSize)` slices pushed in
order, one slice per fuel unit.  The source loops
`while (remainingSentence.length > 0)`; for `maxChunkSize = 0` that JS
loop never terminates, so this embedding is faithful only for a positive
`maxChunkSize`. -/
def hardCutAux (maxChunkSize : Nat) : Nat → List Char → List (List Char)
  | _, [] => []
  | 0, _ => []
  | fuel + 1, s =>
    s.take maxChunkSize :: hardCutAux maxChunkSize fuel (s.drop maxChunkSize)

/-- The hard cut again, with the fuel instantiated: each round removes
`maxChunkSize` characters, so for a positive `maxChunkSize` a fuel of
`s.length` is always enough. -/
def hardCut (maxChunkSize : Nat) (s : List Char) : List (List Char) :=
  hardCutAux maxChunkSize s.length s

/-- The inner `for (const sentence of sentences)` loop of
`splitTextIntoChunks`: oversized sentences are hard-cut straight into
`chunks` (without flushing `currentChunk`); otherwise the running chunk
is flushed when adding the sentence would exceed the limit, or the
sentence is appended with a single-space joiner. -/
def sentenceLoop (maxChunkSize : Nat) :
    List (List Char) → List (List Char) → List Char → List (List Char) × List Char
  | [], chunks, currentChunk => (chunks, currentChunk)
  | sentence :: rest, chunks, currentChunk =>
    if maxChunkSize < sentence.length then
      sentenceLoop maxChunkSize rest (chunks ++ hardCut maxChunkSize sentence) currentChunk
    else if maxChunkSize < currentChunk.length + sentence.length then
      sentenceLoop maxChunkSize rest (chunks ++ [currentChunk]) sentence
    else
      sentenceLoop maxChunkSize rest chunks
        (currentChunk ++ (if currentChunk.isEmpty then [] else [' ']) ++ sentence)

/-- The outer `for (const paragraph of paragraphs)` loop of
`splitTextIntoChunks`: oversized paragraphs are delegated to the
sentence loop; otherwise accumulate with a blank-line (`'\n\n'`)
joiner, flushing when the limit would be exceeded. -/
def paragraphLoop (maxChunkSize : Nat) :
    List (List Char) → List (List Char) → List Char → List (List Char) × List Char
  | [], chunks, currentChunk => (chunks, currentChunk)
  | paragraph :: rest, chunks, currentChunk =>
    if maxChunkSize < paragraph.length then
      let r := sentenceLoop maxChunkSize (splitSentences paragraph) chunks currentChunk
      paragraphLoop maxChunkSize rest r.1 r.2
    else if maxChunkSize < currentChunk.length + paragraph.length then
      paragraphLoop maxChunkSize rest (chunks ++ [currentChunk]) paragraph
    else
      paragraphLoop maxChunkSize rest chunks
        (currentChunk ++ (if currentChunk.isEmpty then [] else ['\n', '\n']) ++ paragraph)

/-- `splitTextIntoChunks(text, maxChunkSize)` (default `maxChunkSize` in the
source is 4000; callers here pass it explicitly). -/
def splitTextIntoChunks (text : List Char) (maxChunkSize : Nat) : List (List Char) :=
  if text.length ≤ maxChunkSize then [text]
  else
    let r := paragraphLoop maxChunkSize (splitParagraphs text) [] []
    if r.2.isEmpty then r.1 else r.1 ++ [r.2]

/-! ## Regular-expression signatures

The classifier (`isCodeBlock`, src/src/utils/helpers.ts lines 57-92) and
the language detector (`CodeBlockDetector.detectLanguage`) test fixed
regular expressions against the input.  The patterns use only literals,
alternation, a few character classes with `*`, `+` or `{4}` repetition,
word boundaries and `^` anchors, so they are embedded as a small
nondeterministic matcher over that fragment. -/

/-- Character classes occurring in the source patterns. -/
inductive CharCls where
  | ws            -- `\s`
  | word          -- `\w`
  | wordDot       -- `[\w.]`
  | wordBSlash    -- `[\w\\]`
  | wordDash      -- `[\w-]`
  | notGt         -- `[^>]`
  | notLBrace     -- `[^{]`
  | upper         -- `[A-Z]`

/-- Membership in a character class. -/
def clsMem (cl : CharCls) (c : Char) : Bool :=
  match cl with
  | .ws => isJsWs c
  | .word => isWordChar c
  | .wordDot => isWordChar c || c == '.'
  | .wordBSlash => isWordChar c || c == '\\'
  | .wordDash => isWordChar c || c == '-'
  | .notGt => !(c == '>')
  | .notLBrace => !(c == '\x7b')
  | .upper => 'A' ≤ c && c ≤ 'Z'

/-- Pattern fragment: literals (case-sensitive or not), classes with
repetition, alternation, sequencing and the zero-width `\b`. -/
inductive Pat where
  | lit (s : String)
  | liti (s : String)
  | one (cl : CharCls)
  | star (cl : CharCls)
  | plus (cl : CharCls)
  | rep (n : Nat) (cl : CharCls)
  | alt (ps : List Pat)
  | seq (ps : List Pat)
  | wordB

/-- Match a case-sensitive literal, tracking the previously consumed
character (needed by later `\b` assertions). -/
def matchLit : Option Char → List Char → List Char → List (Option Char × List Char)
  | prev, [], s => [(prev, s)]
  | _, _ :: _, [] => []
  | prev, c :: cs, d :: ds => if c == d then matchLit (some d) cs ds else []

/-- Match a case-insensitive literal (the `/i` flag; ASCII folding). -/
def matchLiti : Option Char → List Char → List Char → List (Option Char × List Char)
  | prev, [], s => [(prev, s)]
  | _, _ :: _, [] => []
  | prev, c :: cs, d :: ds =>
    if c.toLower == d.toLower then matchLiti (some d) cs ds else []

/-- All ways to consume one or more characters of a class. -/
def matchPlus (cl : CharCls) : Option Char → List Char → List (Option Char × List Char)
  | _, [] => []
  | _, c :: rest =>
    if clsMem cl c then (some c, rest) :: matchPlus cl (some c) rest else []

/-- Consume exactly `n` characters of a class. -/
def matchRep (cl : CharCls) : Nat → Option Char → List Char → List (Option Char × List Char)
  | 0, prev, s => [(prev, s)]
  | _ + 1, _, [] => []
  | n + 1, _, c :: rest => if clsMem cl c then matchRep cl n (some c) rest else []

/-- Is there a `\b` boundary between `prev` and the head of `s`? -/
def atWordBoundary (prev : Option Char) (s : List Char) : Bool :=
  let a := match prev with | none => false | some c => isWordChar c
  let b := match s with | [] => false | c :: _ => isWordChar c
  !(a == b)

mutual
/-- Nondeterministic matcher: all `(previous character, remainder)` pairs
reachable by matching `p` at the front of `s`. -/
def matchAt (prev : Option Char) (p : Pat) (s : List Char) :
    List (Option Char × List Char) :=
  match p with
  | .lit str => matchLit prev str.data s
  | .liti str => matchLiti prev str.data s
  | .one cl =>
    match s with
    | [] => []
    | c :: rest => if clsMem cl c then [(some c, rest)] else []
  | .star cl => (prev, s) :: matchPlus cl prev s
  | .plus cl => matchPlus cl prev s
  | .rep n cl => matchRep cl n prev s
  | .alt ps => matchAlt prev ps s
  | .seq ps => matchSeq prev ps s
  | .wordB => if atWordBoundary prev s then [(prev, s)] else []

/-- Matcher for an alternation's branches. -/
def matchAlt (prev : Option Char) (ps : List Pat) (s : List Char) :
    List (Option Char × List Char) :=
  match ps with
  | [] => []
  | p :: rest => matchAt prev p s ++ matchAlt prev rest s

/-- Matcher for a sequence of patterns. -/
def matchSeq (prev : Option Char) (ps : List Pat) (s : List Char) :
    List (Option Char × List Char) :=
  match ps with
  | [] => [(prev, s)]
  | p :: rest => (matchAt prev p s).flatMap fun pr => matchSeq pr.1 rest pr.2
end

/-- Anchor of a whole pattern: unanchored, `^` with `/m` (start of any
line), or `^` without `/m` (start of the string only). -/
inductive Anchor where
  | free
  | line
  | strt

/-- A whole source regex: its anchor and its body. -/
structure Rx where
  anchor : Anchor
  pat : Pat

/-- May a match begin here, given the previous character? -/
def anchorOk (a : Anchor) (prev : Option Char) : Bool :=
  match a with
  | .free => true
  | .line => match prev with | none => true | some c => c == '\n'
  | .strt => match prev with | none => true | some _ => false

/-- `regex.test(s)`: try the body at every admissible position. -/
def searchAux (a : Anchor) (p : Pat) (prev : Option Char) (s : List Char) : Bool :=
  (anchorOk a prev && !(matchAt prev p s).isEmpty) ||
  (match s with
   | [] => false
   | c :: rest => searchAux a p (some c) rest)

/-- `regex.test(s)` for a whole pattern. -/
def testRx (r : Rx) (s : List Char) : Bool :=
  searchAux r.anchor r.pat none s

/-- Alternation of case-sensitive literals. -/
def lits (ss : List String) : Pat :=
  .alt (ss.map .lit)

/-! ## Classifier (`isCodeBlock`, src/src/utils/helpers.ts lines 57-92) -/

/-- The eight `codePatterns` regexes of `isCodeBlock`, in source order. -/
def codePatterns : List Rx :=
  [ -- /^(const|let|var|function|class|import|export)\s+\w+/m
    ⟨.line, .seq [lits ["const", "let", "var", "function", "class", "import", "export"],
                  .plus .ws, .plus .word]⟩,
    -- /^(def|class|import|from|if __name__)/m
    ⟨.line, lits ["def", "class", "import", "from", "if __name__"]⟩,
    -- /^(public|private|protected|class|interface|enum)/m
    ⟨.line, lits ["public", "private", "protected", "class", "interface", "enum"]⟩,
    -- /^(#include|int\s+main|void\s+main)/m
    ⟨.line, .alt [.lit "#include",
                  .seq [.lit "int", .plus .ws, .lit "main"],
                  .seq [.lit "void", .plus .ws, .lit "main"]]⟩,
    -- /^(<\?php|namespace|use\s+[\w\\]+;)/m
    ⟨.line, .alt [.lit "<?php", .lit "namespace",
                  .seq [.lit "use", .plus .ws, .plus .wordBSlash, .lit ";"]]⟩,
    -- /^(package\s+[\w.]+;|import\s+[\w.]+;)/m
    ⟨.line, .alt [.seq [.lit "package", .plus .ws, .plus .wordDot, .lit ";"],
                  .seq [.lit "import", .plus .ws, .plus .wordDot, .lit ";"]]⟩,
    -- /^(<!DOCTYPE|<html|<head|<body|<script|<style)/m
    ⟨.line, lits ["<!DOCTYPE", "<html", "<head", "<body", "<script", "<style"]⟩,
    -- /^(@media|body\s*{|\.[\w-]+\s*{|#[\w-]+\s*{)/m
    ⟨.line, .alt [.lit "@media",
                  .seq [.lit "body", .star .ws, .lit "\x7b"],
                  .seq [.lit ".", .plus .wordDash, .star .ws, .lit "\x7b"],
                  .seq [.lit "#", .plus .wordDash, .star .ws, .lit "\x7b"]]⟩ ]

/-- `text.split('\n')`. -/
def splitLines (s : List Char) : List (List Char) :=
  match s with
  | [] => [[]]
  | c :: rest =>
    let r := splitLines rest
    if c == '\n' then [] :: r else (c :: r.headD []) :: r.tail

/-- The character class `[{}[\]()<>:;=+\-*/%&|^!~]` of the special-character
line test. -/
def isSpecialChar (c : Char) : Bool :=
  c == '\x7b' || c == '\x7d' || c == '[' || c == ']' || c == '(' || c == ')' ||
  c == '<' || c == '>' || c == ':' || c == ';' || c == '=' || c == '+' ||
  c == '-' || c == '*' || c == '/' || c == '%' || c == '&' || c == '|' ||
  c == '^' || c == '!' || c == '~'

/-- `/^(\s+)\S/.exec(line)`: length of the leading whitespace run when the
line starts with whitespace and still has a non-whitespace character,
`0` otherwise. -/
def indentLen (line : List Char) : Nat :=
  let run := line.takeWhile isJsWs
  if !run.isEmpty && run.length < line.length then run.length else 0

/-- `isCodeBlock(text)`: any signature matches, or the special-character
line ratio exceeds `0.3` and the indentation is consistent.  The JS
float comparisons `ratio > 0.3` and `setSize < indents.length / 2` are
rendered as the exact rational comparisons `10 * count > 3 * total` and
`2 * setSize < length`, which agree with the doubles at every size
reachable here. -/
def isCodeBlock (text : String) : Bool :=
  let hasCodePattern := codePatterns.any fun p => testRx p text.data
  let lines := splitLines text.data
  let specialCount := (lines.filter fun line => line.any isSpecialChar).length
  let indents := ((lines.map indentLen).filter fun n => 0 < n)
  let hasConsistentIndent := !indents.isEmpty && 2 * indents.dedup.length < indents.length
  hasCodePattern || (3 * lines.length < 10 * specialCount && hasConsistentIndent)

/-! ## Language detector (`CodeBlockDetector.detectLanguage`) -/

/-- The `languagePatterns` table, in source (insertion) order. -/
def languagePatterns : List (String × List Rx) :=
  [ ("javascript",
     [⟨.line, .seq [lits ["const", "let", "var", "function", "class", "import", "export"],
                    .plus .ws, .plus .word]⟩,
      ⟨.free, .seq [.wordB, lits ["document", "window", "console"], .lit ".",
                    .plus .word, .lit "("]⟩,
      ⟨.free, .seq [.wordB, lits ["setTimeout", "setInterval", "Promise", "async", "await"],
                    .wordB]⟩]),
    ("typescript",
     [⟨.line, .seq [lits ["interface", "type", "enum"], .plus .ws, .plus .word]⟩,
      ⟨.free, .seq [.lit ":", .star .ws,
                    lits ["string", "number", "boolean", "any", "void", "never"], .wordB]⟩,
      ⟨.free, .seq [.lit "<", .one .upper, .plus .word, .lit ">"]⟩]),
    ("python",
     [⟨.line, lits ["def", "class", "import", "from", "if __name__"]⟩,
      ⟨.free, .seq [.wordB, lits ["self", "None", "True", "False"], .wordB]⟩,
      ⟨.free, .seq [.rep 4 .ws, .lit "def", .plus .ws, .plus .word, .lit "("]⟩]),
    ("java",
     [⟨.line, .seq [lits ["public", "private", "protected"], .plus .ws,
                    lits ["class", "interface", "enum"]]⟩,
      ⟨.free, .seq [.wordB, lits ["extends", "implements", "@Override"], .wordB]⟩,
      ⟨.free, .lit "System.out.println("⟩]),
    ("csharp",
     [⟨.line, .alt [.seq [.lit "using", .plus .ws, .plus .wordDot, .lit ";"],
                    .seq [.lit "namespace", .plus .ws, .plus .wordDot]]⟩,
      ⟨.free, .seq [.wordB, lits ["public", "private", "protected"], .plus .ws,
                    lits ["class", "interface", "enum", "struct"], .wordB]⟩,
      ⟨.free, .lit "Console.WriteLine("⟩]),
    ("php",
     [⟨.line, lits ["<?php", "?>"]⟩,
      ⟨.free, .seq [.lit "$", lits ["this", "_GET", "_POST", "_SESSION", "_COOKIE"]]⟩,
      ⟨.free, .seq [.wordB, lits ["echo", "print", "require", "include"], .wordB]⟩]),
    ("html",
     [⟨.strt, .seq [.liti "<!DOCTYPE", .plus .ws, .liti "html>"]⟩,
      ⟨.free, .seq [.liti "<html", .star .notGt, .lit ">"]⟩,
      ⟨.free, .seq [.lit "<",
                    lits ["head", "body", "div", "span", "p", "a", "img", "script",
                          "link", "meta"],
                    .star .notGt, .lit ">"]⟩]),
    ("css",
     [⟨.line, .seq [lits [".", "#", "*"], .plus .notLBrace, .lit "\x7b"]⟩,
      ⟨.free, .seq [.wordB, lits ["margin", "padding", "border", "color", "background",
                                  "font", "display"], .star .ws, .lit ":"]⟩,
      ⟨.free, .seq [.lit "@media", .plus .ws]⟩]),
    ("ruby",
     [⟨.line, .seq [lits ["def", "class", "module", "require", "include"], .wordB]⟩,
      ⟨.free, .seq [.wordB, lits ["attr_accessor", "attr_reader", "attr_writer"], .wordB]⟩,
      ⟨.free, .seq [.wordB, .lit "do", .plus .ws, .lit "|", .plus .word, .lit "|",
                    .plus .ws]⟩]),
    ("go",
     [⟨.line, .seq [lits ["package", "import", "func", "type", "struct"], .wordB]⟩,
      ⟨.free, .seq [.wordB, lits ["fmt", "go", "chan", "defer", "goroutine"], .wordB]⟩,
      ⟨.free, .seq [.wordB, lits ["nil", "make", "new", "map", "slice"], .wordB]⟩]),
    ("rust",
     [⟨.line, .seq [lits ["fn", "struct", "enum", "impl", "trait", "let", "mut", "pub"],
                    .wordB]⟩,
      ⟨.free, .seq [.wordB, lits ["Option", "Result", "Some", "None", "Ok", "Err"],
                    .wordB]⟩,
      ⟨.free, .seq [.wordB, lits ["match", "if let", "while let"], .wordB]⟩]),
    ("swift",
     [⟨.line, .seq [lits ["import", "class", "struct", "enum", "protocol", "extension"],
                    .wordB]⟩,
      ⟨.free, .seq [.wordB, lits ["var", "let", "func", "guard", "if let", "optional"],
                    .wordB]⟩,
      ⟨.free, .seq [.wordB, lits ["UIViewController", "UIView", "SwiftUI"], .wordB]⟩]),
    ("kotlin",
     [⟨.line, .seq [lits ["fun", "class", "interface", "object", "val", "var",
                          "package", "import"], .wordB]⟩,
      ⟨.free, .seq [.wordB, lits ["override", "lateinit", "companion", "suspend"],
                    .wordB]⟩,
      ⟨.free, .seq [.wordB, lits ["null", "Unit", "Any", "String", "Int", "Boolean"],
                    .wordB]⟩]) ]

/-- The `scores` record: per language, how many of its patterns match. -/
def scores (code : List Char) : List (String × Nat) :=
  languagePatterns.map fun lp => (lp.1, (lp.2.filter fun p => testRx p code).length)

/-- `Math.max(...Object.values(scores))` (all scores are non-negative, so
folding from `0` agrees with `Math.max` on the thirteen values). -/
def maxScoreOf (code : List Char) : Nat :=
  (scores code).foldl (fun m p => Nat.max m p.2) 0

/-- `CodeBlockDetector.detectLanguage(code)`: `undefined` when the best
score is below 2, otherwise the first language (in table order) whose
score equals the maximum. -/
def detectLanguage (code : List Char) : Option String :=
  let sc := scores code
  let maxScore := maxScoreOf code
  if maxScore < 2 then none
  else
    match sc.find? fun p => p.2 == maxScore with
    | some p => some p.1
    | none => none

/-! ## Data model (src/src/types/index.ts) -/

/-- `StructuredContentElement`. -/
structure StructuredContentElement where
  type : String
  content : String
  tag : Option String
  attributes : List (String × String)
deriving DecidableEq, Repr

/-- `TranslationResult`. -/
structure TranslationResult where
  originalText : String
  translatedText : String
  timestamp : Int
deriving DecidableEq, Repr

/-- `ChatMessage`. -/
structure ChatMessage where
  role : String
  content : String
  timestamp : Int
deriving DecidableEq, Repr

/-- `CodeBlockInfo` (`position` flattened into its two fields). -/
structure CodeBlockInfo where
  id : String
  content : String
  language : Option String
  parentSelector : String
  index : Int
deriving DecidableEq, Repr

/-- `PageContext`. -/
structure PageContext where
  url : String
  title : String
  content : String
  htmlContent : Option String
  structuredContent : Option (List StructuredContentElement)
  translatedContent : Option String
  translatedHtmlContent : Option String
  translatedStructuredContent : Option (List StructuredContentElement)
  codeBlocks : List CodeBlockInfo
  translations : List (String × TranslationResult)
  chatHistory : List ChatMessage
  lastUpdated : Int
deriving DecidableEq, Repr

/-! ## Translation of structured content
(`ContentScript.translateStructuredContent`, content script lines 745-798)

The per-unit translator (the `TRANSLATE_TEXT` round trip) is abstracted as
`tr : String → Option String`, `none` standing for a `null` result.  JS
truthiness of the translated strings (`translatedAlt || item.content`,
`if (translatedText)`) is rendered by the explicit `""` tests. -/

/-- `translateStructuredContent` over an explicit item list: code items are
pushed unchanged, image alt texts and other non-empty contents are
translated with fallback to the original on a falsy result. -/
def translateStructuredContent (tr : String → Option String) :
    List StructuredContentElement → List StructuredContentElement
  | [] => []
  | item :: rest =>
    (if item.type == "code" then item
     else if item.type == "image" && item.content != "" then
       match tr item.content with
       | some t => if t == "" then item else ⟨item.type, t, item.tag, item.attributes⟩
       | none => item
     else if item.content != "" then
       match tr item.content with
       | some t => if t == "" then item else ⟨item.type, t, item.tag, item.attributes⟩
       | none => item
     else item) :: translateStructuredContent tr rest

/-! ## Structured extraction
(`ContentScript.extractStructuredContent`, content script lines 441-512)

The DOM subtree handed to the extractor is modelled as a tree of element
nodes (lower-case tag, attribute list, children) and text nodes.
`querySelectorAll` on an element returns its proper element descendants
in document (depth-first, pre-order) order, filtered by tag. -/

/-- A DOM node: a text node or an element. -/
inductive DomNode where
  | txt (s : String)
  | elem (tag : String) (attrs : List (String × String)) (children : List DomNode)

mutual
/-- Size of a node (for termination of the worklist traversals). -/
def nodeSize : DomNode → Nat
  | .txt _ => 1
  | .elem _ _ cs => 1 + nodesSize cs

/-- Total size of a list of nodes. -/
def nodesSize : List DomNode → Nat
  | [] => 0
  | n :: ns => nodeSize n + nodesSize ns
end

theorem nodesSize_append (a b : List DomNode) :
    nodesSize (a ++ b) = nodesSize a + nodesSize b := by
  induction a with
  | nil => simp [nodesSize]
  | cons n ns ih => simp [nodesSize, ih]; omega

/-- Element descendants of all worklist nodes, in document order: an
element is listed before its own descendants, which come before its
right siblings. -/
def descWLAux : Nat → List DomNode → List DomNode
  | _, [] => []
  | 0, _ => []
  | fuel + 1, .txt _ :: rest => descWLAux fuel rest
  | fuel + 1, .elem t a cs :: rest => .elem t a cs :: descWLAux fuel (cs ++ rest)

/-- Element descendants of a worklist (fuel instantiated: each step
retires one node, so `nodesSize` is always enough fuel). -/
def descWL (l : List DomNode) : List DomNode :=
  descWLAux (nodesSize l) l

/-- `textContent` concatenated over a worklist, in document order. -/
def textWLAux : Nat → List DomNode → String
  | _, [] => ""
  | 0, _ => ""
  | fuel + 1, .txt s :: rest => s ++ textWLAux fuel rest
  | fuel + 1, .elem _ _ cs :: rest => textWLAux fuel (cs ++ rest)

/-- `node.textContent`. -/
def textContent (n : DomNode) : String := textWLAux (nodeSize n) [n]

/-- The children of a node (empty for text nodes). -/
def childrenOf : DomNode → List DomNode
  | .txt _ => []
  | .elem _ _ cs => cs

/-- `tagName.toLowerCase()` (tags are stored lower-case; `""` for text). -/
def tagOf : DomNode → String
  | .txt _ => ""
  | .elem t _ _ => t

/-- The attribute list of a node. -/
def attrsOf : DomNode → List (String × String)
  | .txt _ => []
  | .elem _ a _ => a

/-- `getAttribute(name)`. -/
def getAttribute (n : DomNode) (name : String) : Option String :=
  (attrsOf n).lookup name

/-- Does `needle` occur as a contiguous substring of `hay`
(`String.prototype.includes`)? -/
def occursIn (needle : List Char) : List Char → Bool
  | [] => needle.isEmpty
  | c :: rest => (needle.isPrefixOf (c :: rest)) || occursIn needle rest

/-- `ContentScript.getElementAttributes`: keep the attributes whose name
does not start with `on` and whose value does not contain
`javascript:`. -/
def getElementAttributes (n : DomNode) : List (String × String) :=
  (attrsOf n).filter fun attr =>
    !("on".data.isPrefixOf attr.1.data) && !(occursIn "javascript:".data attr.2.data)

/-- `element.querySelectorAll` for a tag-list selector: the element
descendants whose tag is listed, in document order. -/
def qsa (element : DomNode) (tags : List String) : List DomNode :=
  (descWL (childrenOf element)).filter fun n => tags.contains (tagOf n)

/-- The heading selector `'h1, h2, h3, h4, h5, h6'`. -/
def headingTags : List String := ["h1", "h2", "h3", "h4", "h5", "h6"]

/-- `extractStructuredContent(element)`: five grouped `querySelectorAll`
passes (headings, paragraphs, lists, code blocks, images), each pass in
document order, concatenated in that fixed type order. -/
def extractStructuredContent (element : DomNode) : List StructuredContentElement :=
  ((qsa element headingTags).map fun h =>
    ⟨"heading", textContent h, some (tagOf h), getElementAttributes h⟩)
  ++ ((qsa element ["p"]).map fun p =>
    ⟨"paragraph", textContent p, some "p", getElementAttributes p⟩)
  ++ ((qsa element ["ul", "ol"]).map fun l =>
    ⟨"list", String.intercalate "\n" ((qsa l ["li"]).map textContent),
     some (tagOf l), getElementAttributes l⟩)
  ++ ((qsa element ["pre", "code"]).map fun c =>
    ⟨"code", textContent c, some (tagOf c), getElementAttributes c⟩)
  ++ ((qsa element ["img"]).map fun i =>
    ⟨"image", (getAttribute i "alt").getD "", some "img", getElementAttributes i⟩)

/-- The tags recognized as structural units by the extractor. -/
def recognizedTags : List String :=
  headingTags ++ ["p", "ul", "ol", "pre", "code", "img"]

/-- Segment type assigned to a recognized tag. -/
def typeForTag (t : String) : String :=
  if headingTags.contains t then "heading"
  else if t == "p" then "paragraph"
  else if t == "ul" || t == "ol" then "list"
  else if t == "pre" || t == "code" then "code"
  else "image"

/-- The segment the extractor builds for a recognized node. -/
def segmentOf (n : DomNode) : StructuredContentElement :=
  if headingTags.contains (tagOf n) then
    ⟨"heading", textContent n, some (tagOf n), getElementAttributes n⟩
  else if tagOf n == "p" then
    ⟨"paragraph", textContent n, some "p", getElementAttributes n⟩
  else if tagOf n == "ul" || tagOf n == "ol" then
    ⟨"list", String.intercalate "\n" ((qsa n ["li"]).map textContent),
     some (tagOf n), getElementAttributes n⟩
  else if tagOf n == "pre" || tagOf n == "code" then
    ⟨"code", textContent n, some (tagOf n), getElementAttributes n⟩
  else
    ⟨"image", (getAttribute n "alt").getD "", some "img", getElementAttributes n⟩

/-- Reference order from the spec ("depth-first, pre-order" document
reading order): one segment per recognized descendant, emitted in a
single pre-order pass over a worklist. -/
def emitWLAux : Nat → List DomNode → List StructuredContentElement
  | _, [] => []
  | 0, _ => []
  | fuel + 1, .txt _ :: rest => emitWLAux fuel rest
  | fuel + 1, .elem t a cs :: rest =>
    (if recognizedTags.contains t then [segmentOf (.elem t a cs)] else [])
      ++ emitWLAux fuel (cs ++ rest)

/-- Reference extraction in document reading order, per the spec. -/
def emitPreOrder (root : DomNode) : List StructuredContentElement :=
  emitWLAux (nodesSize (childrenOf root)) (childrenOf root)

/-! ## Generic key/value store and cache manager
(src/src/utils/helpers.ts storage section, lines 163-334)

`browser.storage.local` is modelled as an association list with unique
keys; `set` replaces any binding of the key, `remove` deletes the listed
keys, and the eviction sweep iterates over all entries. -/

/-- A value stored in `browser.storage.local`: a translation cache entry,
the `recentPages` list, or a page context. -/
inductive StoredValue where
  | cacheEntry (d : TranslationResult)
  | recentList (urls : List String)
  | pageCtx (c : PageContext)
deriving DecidableEq, Repr

/-- The local store. -/
abbrev LocalStorage := List (String × StoredValue)

/-- `browser.storage.local.get(key)`. -/
def storageGet : LocalStorage → String → Option StoredValue
  | [], _ => none
  | (k, v) :: rest, key => if key == k then some v else storageGet rest key

/-- `browser.storage.local.set({[key]: v})`: replace any binding of `key`. -/
def storageSet (st : LocalStorage) (key : String) (v : StoredValue) : LocalStorage :=
  (key, v) :: st.filter fun kv => !(kv.1 == key)

/-- `browser.storage.local.remove(keys)`. -/
def storageRemove (st : LocalStorage) (keys : List String) : LocalStorage :=
  st.filter fun kv => !(keys.contains kv.1)

/-- `ToInt32` on an exact integer: two's-complement wrap into
`[-2^31, 2^31)`. -/
def toInt32 (n : Int) : Int :=
  (n + 2 ^ 31) % 2 ^ 32 - 2 ^ 31

/-- One step of `hashString`: `hash = ((hash << 5) - hash) + charCode;
hash = hash & hash` (the shift truncates to 32 bits, the following
subtraction and addition are exact in doubles, and `& hash` truncates
again). -/
def hashStep (h : Int) (code : Nat) : Int :=
  toInt32 (toInt32 (h * 32) - h + code)

/-- The accumulated 32-bit hash of `hashString`. -/
def hashInt (s : String) : Int :=
  s.data.foldl (fun h c => hashStep h c.toNat) 0

/-- One base-36 digit (lower case). -/
def base36Digit (d : Nat) : Char :=
  if d < 10 then Char.ofNat ('0'.toNat + d) else Char.ofNat ('a'.toNat + d - 10)

/-- Base-36 digits, most significant first (the quotient shrinks every
round, so a fuel of `n + 1` is always enough). -/
def natToBase36Aux : Nat → Nat → List Char
  | 0, n => [base36Digit (n % 36)]
  | fuel + 1, n =>
    if n < 36 then [base36Digit n]
    else natToBase36Aux fuel (n / 36) ++ [base36Digit (n % 36)]

/-- Base-36 digits of `n` (lower case), most significant first. -/
def natToBase36 (n : Nat) : List Char :=
  natToBase36Aux (n + 1) n

/-- `hashString(str)`: the 32-bit rolling hash rendered with
`toString(36)` (sign, then base-36 digits of the absolute value). -/
def hashString (s : String) : String :=
  let h := hashInt s
  if h < 0 then String.mk ('-' :: natToBase36 h.natAbs)
  else String.mk (natToBase36 h.toNat)

/-- The eviction predicate of `manageCache`: the key starts with
`cache_`, `value.timestamp` is truthy (non-zero; `NaN` cannot arise
here), and the entry is older than one week. -/
def shouldEvict (now : Int) (kv : String × StoredValue) : Bool :=
  "cache_".data.isPrefixOf kv.1.data &&
    (match kv.2 with
     | .cacheEntry d => d.timestamp != 0 && decide (7 * 24 * 60 * 60 * 1000 < now - d.timestamp)
     | _ => false)

/-- `manageCache()`: collect the keys of the expired cache entries in a
full scan, then remove them. -/
def manageCache (st : LocalStorage) (now : Int) : LocalStorage :=
  let keysToRemove :=
    ((st.filter (shouldEvict now)).map Prod.fst)
  storageRemove st keysToRemove

/-- `saveTranslationCache(originalText, translatedText)` at clock `now`:
store the entry under `cache_` + `hashString(originalText)` and run the
eviction sweep. -/
def saveTranslationCache (st : LocalStorage) (now : Int)
    (originalText translatedText : String) : LocalStorage :=
  let cacheKey := "cache_" ++ hashString originalText
  let st1 := storageSet st cacheKey (.cacheEntry ⟨originalText, translatedText, now⟩)
  manageCache st1 now

/-- `getTranslationCache(originalText)`: the raw stored entry (no
freshness check), `null` when absent. -/
def getTranslationCache (st : LocalStorage) (originalText : String) :
    Option TranslationResult :=
  match storageGet st ("cache_" ++ hashString originalText) with
  | some (.cacheEntry d) => some d
  | _ => none

/-- `isCacheValid(result, expirationMinutes)` at clock `now`. -/
def isCacheValid (now : Int) (result : Option TranslationResult)
    (expirationMinutes : Int) : Bool :=
  match result with
  | none => false
  | some r => decide (now - r.timestamp < expirationMinutes * 60 * 1000)

/-- The Cache Manager `get` with freshness: `getTranslationCache`
composed with the `isCacheValid` short-TTL check, exactly as the
translation flow consults the cache before reusing a translation. -/
def getFreshTranslation (st : LocalStorage) (now : Int)
    (expirationMinutes : Int) (text : String) : Option String :=
  match getTranslationCache st text with
  | some cached =>
    if isCacheValid now (some ⟨text, cached.translatedText, cached.timestamp⟩)
        expirationMinutes then
      some cached.translatedText
    else none
  | none => none

/-! ## Context store (`savePageContext` / `getRecentPages`,
src/src/utils/helpers.ts lines 209-241) -/

/-- `getRecentPages()`: the stored `recentPages` list, `[]` when absent. -/
def getRecentPages (st : LocalStorage) : List String :=
  match storageGet st "recentPages" with
  | some (.recentList l) => l
  | _ => []

/-- `savePageContext(context)`: persist the context under
`page_` + URL (as given — `lastUpdated` is not touched here), then
rebuild `recentPages` as front-push, de-duplicate, truncate to 10. -/
def savePageContext (st : LocalStorage) (context : PageContext) : LocalStorage :=
  let key := "page_" ++ context.url
  let st1 := storageSet st key (.pageCtx context)
  let recentPages := getRecentPages st1
  let updatedPages :=
    (context.url :: recentPages.filter fun url => !(url == context.url)).take 10
  storageSet st1 "recentPages" (.recentList updatedPages)

/-- `getPageContext(url)`. -/
def getPageContext (st : LocalStorage) (url : String) : Option PageContext :=
  match storageGet st ("page_" ++ url) with
  | some (.pageCtx c) => some c
  | _ => none

/-! ## Translation entry points

The completion backend is abstracted as `backend : String → String`
mapping the text (or chunk) sent to the output text returned; each
definition also reports the list of inputs it sends to the backend, so
"makes no backend call" is the statement that this list is empty. -/

/-- `ApiClient.translateText` (the guarded revision): empty or
whitespace-only input (`!text || text.trim().length === 0`) is returned
unchanged with no backend call; otherwise one backend call is made and
its output returned.  Prompt construction and response parsing are
inside `backend`. -/
def apiClientTranslateText (backend : String → String) (text : String) :
    String × List String :=
  if text.data.all isJsWs then (text, [])
  else (backend text, [text])

/-- The long-text branch of `TranslationEngine.translateText`: chunk,
translate every chunk, join with a single space, cache under the
original text; the short branch makes one call and caches. -/
def teTranslateCore (backend : String → String) (st : LocalStorage) (now : Int)
    (text : String) : String × List String × LocalStorage :=
  if 4000 < text.length then
    let chunks := (splitTextIntoChunks text.data 4000).map fun l => String.mk l
    let translatedText := String.intercalate " " (chunks.map backend)
    (translatedText, chunks, saveTranslationCache st now text translatedText)
  else
    (backend text, [text], saveTranslationCache st now text (backend text))

/-- `TranslationEngine.translateText` (the OpenAI-library revision):
return code blocks unchanged; reuse a cached translation when the entry
and its fields are truthy and the short TTL has not elapsed; otherwise
translate (chunked if over 4000 characters) and cache.  There is no
empty-input guard in this revision. -/
def teTranslateText (backend : String → String) (st : LocalStorage) (now : Int)
    (cacheExpiration : Int) (text : String) : String × List String × LocalStorage :=
  if isCodeBlock text then (text, [], st)
  else
    match getTranslationCache st text with
    | some cached =>
      if cached.translatedText != "" && cached.timestamp != 0 &&
          isCacheValid now (some ⟨text, cached.translatedText, cached.timestamp⟩)
            cacheExpiration then
        (cached.translatedText, [], st)
      else teTranslateCore backend st now text
    | none => teTranslateCore backend st now text

/-! ## Concrete sample inputs used by the scenario theorems -/

/-- The scenario source text `"def foo():\n    return 1"`. -/
def pySample : String := "def foo():\n    return 1"

/-- A text matching exactly two JavaScript signatures and two TypeScript
signatures (and at most one signature of every other family). -/
def tieSample : String := "const a\nconsole.b(\nx: string\n<Abc>"

/-- A content tree whose first unit in reading order is a paragraph and
whose second is a heading. -/
def sampleTree : DomNode :=
  .elem "div" []
    [.elem "p" [] [.txt "A"], .elem "h1" [] [.txt "B"]]

/-- A page context with a stale `lastUpdated` of 5. -/
def sampleContext : PageContext :=
  ⟨"u", "t", "c", none, none, none, none, none, [], [], [], 5⟩

/-- A context for an eleventh document `"u11"`. -/
def sampleContext11 : PageContext :=
  ⟨"u11", "t", "c", none, none, none, none, none, [], [], [], 5⟩

/-- A store tracking ten recently-used documents `"u1" … "u10"`. -/
def tenPageStore : LocalStorage :=
  [("recentPages", .recentList
    ["u1", "u2", "u3", "u4", "u5", "u6", "u7", "u8", "u9", "u10"])]

/-- A store holding one cache entry whose stored timestamp is `0`. -/
def zeroTsStore : LocalStorage :=
  [("cache_z", .cacheEntry ⟨"o", "t", 0⟩)]

/-- A store holding one week-old cache entry and the recent-pages list. -/
def mixedStore : LocalStorage :=
  [("cache_a", .cacheEntry ⟨"o", "t", 1⟩), ("recentPages", .recentList ["u"])]

/-! ## Theorems -/

/-- C1: for every per-unit translator and every input segment list,
`translateStructuredContent` produces a list of the same length in
which every index holding a code-classified segment holds the input
segment unchanged (in particular its text is byte-identical). -/
theorem c1_code_segments_preserved (tr : String → Option String)
    (items : List StructuredContentElement) :
    (translateStructuredContent tr items).length = items.length ∧
    (∀ i item, items.get? i = some item → item.type = "code" →
      (translateStructuredContent tr items).get? i = some item) := by
  induction items with
  | nil => exact ⟨rfl, by intro i item h; simp [List.get?] at h⟩
  | cons hd tl ih =>
    constructor
    · simpa [translateStructuredContent] using ih.1
    · intro i item hget htype
      cases i with
      | zero =>
        simp only [List.get?] at hget
        cases hget
        simp [translateStructuredContent, htype]
      | succ n =>
        simp only [List.get?] at hget
        simpa [translateStructuredContent] using ih.2 n item hget htype

/-- Witness for C1 at a concrete translator and segment list. -/
theorem c1_witness :
    (translateStructuredContent (fun _ => some "X")
      [⟨"code", "let x", some "pre", []⟩, ⟨"paragraph", "hello", some "p", []⟩]).get? 0 =
      some ⟨"code", "let x", some "pre", []⟩ :=
  (c1_code_segments_preserved (fun _ => some "X")
    [⟨"code", "let x", some "pre", []⟩, ⟨"paragraph", "hello", some "p", []⟩]).2
    0 ⟨"code", "let x", some "pre", []⟩ rfl rfl

/-- C3: evaluating the chunker at `"ab. cdefgh"` with `maxChunkSize = 5`:
the first sentence `"ab."` is held in `currentChunk` while the oversized
second sentence is hard-cut straight into `chunks`, so the returned
chunks are `["cdefg", "h", "ab."]` — the first sentence's content comes
after the later sentence's slices, and no join order reproduces the
source content. -/
theorem c3_reorder_eval :
    splitTextIntoChunks "ab. cdefgh".data 5 =
      ["cdefg".data, "h".data, "ab.".data] := by decide

/-- C4 counterexample: with `maxChunkSize = 5`, the text `"aa\n\nbb"`
(length 6) is returned as the single chunk `"aa\n\nbb"` of length 6,
exceeding `maxChunkSize` (the `'\n\n'` joiner is not counted by the
accumulation test). -/
theorem c4_counterexample :
    splitTextIntoChunks "aa\n\nbb".data 5 = ["aa\n\nbb".data] ∧
      ("aa\n\nbb".data).length = 6 := by decide

/-- Every hard-cut slice has length at most `maxChunkSize`. -/
theorem hardCutAux_chunk_le (m : Nat) (fuel : Nat) :
    ∀ (s : List Char), ∀ c ∈ hardCutAux m fuel s, c.length ≤ m := by
  induction fuel with
  | zero =>
    intro s c hc
    cases s <;> simp [hardCutAux] at hc
  | succ fuel ih =>
    intro s c hc
    cases s with
    | nil => simp [hardCutAux] at hc
    | cons a rest =>
      simp only [hardCutAux, List.mem_cons] at hc
      rcases hc with h | h
      · subst h
        simpa using List.length_take_le m (a :: rest)
      · exact ih _ c h

/-- The sentence loop keeps every emitted chunk, and the running chunk,
within `maxChunkSize + 2`. -/
theorem sentenceLoop_bound (m : Nat) (ss : List (List Char)) :
    ∀ chunks currentChunk,
      (∀ c ∈ chunks, c.length ≤ m + 2) → currentChunk.length ≤ m + 2 →
      (∀ c ∈ (sentenceLoop m ss chunks currentChunk).1, c.length ≤ m + 2) ∧
        (sentenceLoop m ss chunks currentChunk).2.length ≤ m + 2 := by
  induction ss with
  | nil =>
    intro chunks currentChunk hc hcur
    exact ⟨hc, hcur⟩
  | cons s rest ih =>
    intro chunks currentChunk hc hcur
    simp only [sentenceLoop]
    split_ifs with h1 h2 h3
    · refine ih _ _ ?_ hcur
      intro c hmem
      rcases List.mem_append.mp hmem with h | h
      · exact hc c h
      · exact le_trans (hardCutAux_chunk_le m s.length s c h) (by omega)
    · refine ih _ _ ?_ (by omega)
      intro c hmem
      rcases List.mem_append.mp hmem with h | h
      · exact hc c h
      · simp only [List.mem_singleton] at h
        subst h
        exact hcur
    · have he : currentChunk = [] := by simpa using h3
      subst he
      refine ih _ _ hc ?_
      simp only [List.nil_append, List.length_append, List.length_nil]
      omega
    · refine ih _ _ hc ?_
      simp only [List.length_append, List.length_cons, List.length_nil]
      omega

/-- The paragraph loop keeps every emitted chunk, and the running chunk,
within `maxChunkSize + 2`. -/
theorem paragraphLoop_bound (m : Nat) (ps : List (List Char)) :
    ∀ chunks currentChunk,
      (∀ c ∈ chunks, c.length ≤ m + 2) → currentChunk.length ≤ m + 2 →
      (∀ c ∈ (paragraphLoop m ps chunks currentChunk).1, c.length ≤ m + 2) ∧
        (paragraphLoop m ps chunks currentChunk).2.length ≤ m + 2 := by
  induction ps with
  | nil =>
    intro chunks currentChunk hc hcur
    exact ⟨hc, hcur⟩
  | cons p rest ih =>
    intro chunks currentChunk hc hcur
    simp only [paragraphLoop]
    split_ifs with h1 h2 h3
    · have hs := sentenceLoop_bound m (splitSentences p) chunks currentChunk hc hcur
      exact ih _ _ hs.1 hs.2
    · refine ih _ _ ?_ (by omega)
      intro c hmem
      rcases List.mem_append.mp hmem with h | h
      · exact hc c h
      · simp only [List.mem_singleton] at h
        subst h
        exact hcur
    · have he : currentChunk = [] := by simpa using h3
      subst he
      refine ih _ _ hc ?_
      simp only [List.nil_append, List.length_append, List.length_nil]
      omega
    · refine ih _ _ hc ?_
      simp only [List.length_append, List.length_cons, List.length_nil]
      omega

/-- C4 (amended): for every text and every positive `maxChunkSize`, every
chunk returned by `splitTextIntoChunks` has length at most
`maxChunkSize + 2` (the blank-line joiner, two characters, is not
counted by the accumulation test, so a chunk may exceed `maxChunkSize`
by up to 2; the unamended bound `maxChunkSize` fails, see the
counterexample). -/
theorem c4_chunk_length_bound (text : List Char) (maxChunkSize : Nat)
    (hpos : 1 ≤ maxChunkSize) :
    ∀ c ∈ splitTextIntoChunks text maxChunkSize, c.length ≤ maxChunkSize + 2 := by
  intro c hc
  unfold splitTextIntoChunks at hc
  split_ifs at hc with hshort
  · simp only [List.mem_singleton] at hc
    subst hc
    omega
  · have hb := paragraphLoop_bound maxChunkSize (splitParagraphs text) [] []
      (by intro c hc; simp at hc) (by simp)
    by_cases he : (paragraphLoop maxChunkSize (splitParagraphs text) [] []).2.isEmpty
    · simp only [he, if_true] at hc
      exact hb.1 c hc
    · simp only [he, if_false, Bool.false_eq_true] at hc
      rcases List.mem_append.mp hc with h | h
      · exact hb.1 c h
      · simp only [List.mem_singleton] at h
        subst h
        exact hb.2

/-- Witness for C4 at a concrete text and chunk size. -/
theorem c4_witness :
    1 ≤ 5 ∧ ("ab".data).length ≤ 5 + 2 :=
  ⟨by decide, c4_chunk_length_bound "ab".data 5 (by decide) "ab".data (by decide)⟩

/-- C2 counterexample: on a tree whose reading order is paragraph `"A"`
then heading `"B"`, the extractor emits the heading first — the output
order is not the depth-first pre-order document order. -/
theorem c2_counterexample :
    extractStructuredContent sampleTree ≠ emitPreOrder sampleTree ∧
    (extractStructuredContent sampleTree).map (fun s => s.type) =
      ["heading", "paragraph"] ∧
    (emitPreOrder sampleTree).map (fun s => s.type) =
      ["paragraph", "heading"] := by decide

/-- `l.contains t = true` from membership. -/
theorem contains_true_of_mem {t : String} {l : List String} (h : t ∈ l) :
    l.contains t = true :=
  List.elem_iff.mpr h

/-- `l.contains t = false` from non-membership. -/
theorem contains_false_of_not_mem {t : String} {l : List String} (h : t ∉ l) :
    l.contains t = false :=
  Bool.eq_false_iff.mpr fun hc => h (List.elem_iff.mp hc)

/-- The extractor's segment type agrees with `typeForTag` of the node's
tag. -/
theorem segmentOf_type (n : DomNode) :
    (segmentOf n).type = typeForTag (tagOf n) := by
  unfold segmentOf typeForTag
  split_ifs <;> rfl

/-- Selecting one type from the spec's pre-order emission equals the
corresponding document-ordered tag filter mapped through the segment
builder, at every fuel. -/
theorem emit_filter_eq (ty : String) :
    ∀ (fuel : Nat) (l : List DomNode),
      (emitWLAux fuel l).filter (fun s => s.type == ty) =
        ((descWLAux fuel l).filter
          (fun n => recognizedTags.contains (tagOf n) && (typeForTag (tagOf n) == ty))).map
          segmentOf := by
  intro fuel
  induction fuel with
  | zero =>
    intro l
    cases l <;> simp [emitWLAux, descWLAux]
  | succ fuel ih =>
    intro l
    cases l with
    | nil => simp [emitWLAux, descWLAux]
    | cons n rest =>
      cases n with
      | txt s =>
        simpa [emitWLAux, descWLAux] using ih rest
      | elem t a cs =>
        have hseg : (segmentOf (DomNode.elem t a cs)).type = typeForTag t := by
          rw [segmentOf_type]
          rfl
        by_cases hmem : t ∈ recognizedTags
        · by_cases hty : typeForTag t = ty
          · simp [emitWLAux, descWLAux, tagOf, hmem, hty, hseg, ih (cs ++ rest)]
          · simp [emitWLAux, descWLAux, tagOf, hmem, hty, hseg, ih (cs ++ rest)]
        · simp [emitWLAux, descWLAux, tagOf, hmem, ih (cs ++ rest)]

/-- Tag-filter bridge for the heading group. -/
theorem bridge_heading (t : String) :
    (recognizedTags.contains t && (typeForTag t == "heading")) =
      headingTags.contains t := by
  by_cases h : t ∈ headingTags
  · have h6 := h
    simp only [headingTags, List.mem_cons, List.not_mem_nil, or_false] at h6
    rcases h6 with rfl | rfl | rfl | rfl | rfl | rfl <;> decide
  · rw [contains_false_of_not_mem h]
    by_cases h2 : t ∈ recognizedTags
    · have h2' := h2
      simp only [recognizedTags, headingTags, List.mem_append, List.mem_cons,
        List.not_mem_nil, or_false] at h2'
      rcases h2' with (rfl | rfl | rfl | rfl | rfl | rfl) | (rfl | rfl | rfl | rfl | rfl | rfl) <;>
        first
        | decide
        | exact absurd (by decide) h
    · rw [contains_false_of_not_mem h2]
      rfl

/-- Tag-filter bridge for the paragraph group. -/
theorem bridge_paragraph (t : String) :
    (recognizedTags.contains t && (typeForTag t == "paragraph")) =
      List.contains ["p"] t := by
  by_cases h : t ∈ (["p"] : List String)
  · simp only [List.mem_cons, List.not_mem_nil, or_false] at h
    subst h
    decide
  · rw [contains_false_of_not_mem h]
    by_cases h2 : t ∈ recognizedTags
    · have h2' := h2
      simp only [recognizedTags, headingTags, List.mem_append, List.mem_cons,
        List.not_mem_nil, or_false] at h2'
      rcases h2' with (rfl | rfl | rfl | rfl | rfl | rfl) | (rfl | rfl | rfl | rfl | rfl | rfl) <;>
        first
        | decide
        | exact absurd (by decide) h
    · rw [contains_false_of_not_mem h2]
      rfl

/-- Tag-filter bridge for the list group. -/
theorem bridge_list (t : String) :
    (recognizedTags.contains t && (typeForTag t == "list")) =
      List.contains ["ul", "ol"] t := by
  by_cases h : t ∈ (["ul", "ol"] : List String)
  · simp only [List.mem_cons, List.not_mem_nil, or_false] at h
    rcases h with rfl | rfl <;> decide
  · rw [contains_false_of_not_mem h]
    by_cases h2 : t ∈ recognizedTags
    · have h2' := h2
      simp only [recognizedTags, headingTags, List.mem_append, List.mem_cons,
        List.not_mem_nil, or_false] at h2'
      rcases h2' with (rfl | rfl | rfl | rfl | rfl | rfl) | (rfl | rfl | rfl | rfl | rfl | rfl) <;>
        first
        | decide
        | exact absurd (by decide) h
    · rw [contains_false_of_not_mem h2]
      rfl

/-- Tag-filter bridge for the code group. -/
theorem bridge_code (t : String) :
    (recognizedTags.contains t && (typeForTag t == "code")) =
      List.contains ["pre", "code"] t := by
  by_cases h : t ∈ (["pre", "code"] : List String)
  · simp only [List.mem_cons, List.not_mem_nil, or_false] at h
    rcases h with rfl | rfl <;> decide
  · rw [contains_false_of_not_mem h]
    by_cases h2 : t ∈ recognizedTags
    · have h2' := h2
      simp only [recognizedTags, headingTags, List.mem_append, List.mem_cons,
        List.not_mem_nil, or_false] at h2'
      rcases h2' with (rfl | rfl | rfl | rfl | rfl | rfl) | (rfl | rfl | rfl | rfl | rfl | rfl) <;>
        first
        | decide
        | exact absurd (by decide) h
    · rw [contains_false_of_not_mem h2]
      rfl

/-- Tag-filter bridge for the image group. -/
theorem bridge_image (t : String) :
    (recognizedTags.contains t && (typeForTag t == "image")) =
      List.contains ["img"] t := by
  by_cases h : t ∈ (["img"] : List String)
  · simp only [List.mem_cons, List.not_mem_nil, or_false] at h
    subst h
    decide
  · rw [contains_false_of_not_mem h]
    by_cases h2 : t ∈ recognizedTags
    · have h2' := h2
      simp only [recognizedTags, headingTags, List.mem_append, List.mem_cons,
        List.not_mem_nil, or_false] at h2'
      rcases h2' with (rfl | rfl | rfl | rfl | rfl | rfl) | (rfl | rfl | rfl | rfl | rfl | rfl) <;>
        first
        | decide
        | exact absurd (by decide) h
    · rw [contains_false_of_not_mem h2]
      rfl

/-- Heading group: the extractor's heading pass, rewritten through the
generic segment builder and the combined tag predicate. -/
theorem group_heading (l : List DomNode) :
    ((l.filter fun n => headingTags.contains (tagOf n)).map fun h =>
      (⟨"heading", textContent h, some (tagOf h), getElementAttributes h⟩ :
        StructuredContentElement)) =
      ((l.filter fun n =>
        recognizedTags.contains (tagOf n) && (typeForTag (tagOf n) == "heading"))).map
        segmentOf := by
  have hp : (fun n => recognizedTags.contains (tagOf n) &&
      (typeForTag (tagOf n) == "heading")) =
      (fun n => headingTags.contains (tagOf n)) :=
    funext fun n => bridge_heading (tagOf n)
  rw [hp]
  refine List.map_eq_map_iff.mpr ?_
  intro n hn
  have hmem := (List.mem_filter.mp hn).2
  unfold segmentOf
  rw [if_pos hmem]

/-- Paragraph group. -/
theorem group_paragraph (l : List DomNode) :
    ((l.filter fun n => List.contains ["p"] (tagOf n)).map fun p =>
      (⟨"paragraph", textContent p, some "p", getElementAttributes p⟩ :
        StructuredContentElement)) =
      ((l.filter fun n =>
        recognizedTags.contains (tagOf n) && (typeForTag (tagOf n) == "paragraph"))).map
        segmentOf := by
  have hp : (fun n => recognizedTags.contains (tagOf n) &&
      (typeForTag (tagOf n) == "paragraph")) =
      (fun n => List.contains ["p"] (tagOf n)) :=
    funext fun n => bridge_paragraph (tagOf n)
  rw [hp]
  refine List.map_eq_map_iff.mpr ?_
  intro n hn
  have hmem := (List.mem_filter.mp hn).2
  have ht : tagOf n = "p" := by
    have := List.elem_iff.mp hmem
    simpa using this
  unfold segmentOf
  rw [ht, if_neg (by decide), if_pos (by decide)]

/-- List group. -/
theorem group_list (l : List DomNode) :
    ((l.filter fun n => List.contains ["ul", "ol"] (tagOf n)).map fun lst =>
      (⟨"list", String.intercalate "\n"
          (((descWLAux (nodesSize (childrenOf lst)) (childrenOf lst)).filter fun n =>
            List.contains ["li"] (tagOf n)).map textContent),
        some (tagOf lst), getElementAttributes lst⟩ :
        StructuredContentElement)) =
      ((l.filter fun n =>
        recognizedTags.contains (tagOf n) && (typeForTag (tagOf n) == "list"))).map
        segmentOf := by
  have hp : (fun n => recognizedTags.contains (tagOf n) &&
      (typeForTag (tagOf n) == "list")) =
      (fun n => List.contains ["ul", "ol"] (tagOf n)) :=
    funext fun n => bridge_list (tagOf n)
  rw [hp]
  refine List.map_eq_map_iff.mpr ?_
  intro n hn
  have hmem := (List.mem_filter.mp hn).2
  have ht : tagOf n = "ul" ∨ tagOf n = "ol" := by
    have := List.elem_iff.mp hmem
    simpa using this
  unfold segmentOf
  rcases ht with ht | ht <;>
    · rw [ht, if_neg (by decide), if_neg (by decide), if_pos (by decide)]
      rfl

/-- Code group. -/
theorem group_code (l : List DomNode) :
    ((l.filter fun n => List.contains ["pre", "code"] (tagOf n)).map fun c =>
      (⟨"code", textContent c, some (tagOf c), getElementAttributes c⟩ :
        StructuredContentElement)) =
      ((l.filter fun n =>
        recognizedTags.contains (tagOf n) && (typeForTag (tagOf n) == "code"))).map
        segmentOf := by
  have hp : (fun n => recognizedTags.contains (tagOf n) &&
      (typeForTag (tagOf n) == "code")) =
      (fun n => List.contains ["pre", "code"] (tagOf n)) :=
    funext fun n => bridge_code (tagOf n)
  rw [hp]
  refine List.map_eq_map_iff.mpr ?_
  intro n hn
  have hmem := (List.mem_filter.mp hn).2
  have ht : tagOf n = "pre" ∨ tagOf n = "code" := by
    have := List.elem_iff.mp hmem
    simpa using this
  unfold segmentOf
  rcases ht with ht | ht <;>
    rw [ht, if_neg (by decide), if_neg (by decide), if_neg (by decide),
      if_pos (by decide)]

/-- Image group. -/
theorem group_image (l : List DomNode) :
    ((l.filter fun n => List.contains ["img"] (tagOf n)).map fun i =>
      (⟨"image", (getAttribute i "alt").getD "", some "img", getElementAttributes i⟩ :
        StructuredContentElement)) =
      ((l.filter fun n =>
        recognizedTags.contains (tagOf n) && (typeForTag (tagOf n) == "image"))).map
        segmentOf := by
  have hp : (fun n => recognizedTags.contains (tagOf n) &&
      (typeForTag (tagOf n) == "image")) =
      (fun n => List.contains ["img"] (tagOf n)) :=
    funext fun n => bridge_image (tagOf n)
  rw [hp]
  refine List.map_eq_map_iff.mpr ?_
  intro n hn
  have hmem := (List.mem_filter.mp hn).2
  have ht : tagOf n = "img" := by
    have := List.elem_iff.mp hmem
    simpa using this
  unfold segmentOf
  rw [ht, if_neg (by decide), if_neg (by decide), if_neg (by decide),
    if_neg (by decide)]

/-- C2 (amended): for every content tree, the extractor's output is the
spec's pre-order emission regrouped by segment type in the fixed order
heading, paragraph, list, code, image — inside each type group the
order is the document reading order, but the groups are concatenated
rather than interleaved (the unamended pre-order claim fails, see the
counterexample). -/
theorem c2_grouped_by_type (root : DomNode) :
    extractStructuredContent root =
      ((emitPreOrder root).filter fun s => s.type == "heading")
      ++ ((emitPreOrder root).filter fun s => s.type == "paragraph")
      ++ ((emitPreOrder root).filter fun s => s.type == "list")
      ++ ((emitPreOrder root).filter fun s => s.type == "code")
      ++ ((emitPreOrder root).filter fun s => s.type == "image") := by
  unfold extractStructuredContent emitPreOrder qsa descWL
  rw [group_heading, group_paragraph, group_list, group_code, group_image,
    emit_filter_eq "heading", emit_filter_eq "paragraph", emit_filter_eq "list",
    emit_filter_eq "code", emit_filter_eq "image"]

set_option maxHeartbeats 2000000 in
/-- C7 counterexample: the language-detection step does not report
`"python"` for the scenario text — only one python signature matches,
which is below the ≥2 threshold, so the detector returns `undefined`. -/
theorem c7_counterexample :
    ¬ detectLanguage pySample.data = some "python" := by decide

set_option maxHeartbeats 2000000 in
/-- C7 (amended): the scenario text `"def foo():\n    return 1"` is
classified as code (`isCode = true` via the `^def` signature), but its
detected language is `undefined` rather than `"python"`, because
exactly one python signature matches and the detector requires a best
score of at least 2. -/
theorem c7_classification :
    isCodeBlock pySample = true ∧
    detectLanguage pySample.data = none ∧
    (scores pySample.data).lookup "python" = some 1 := by decide

set_option maxHeartbeats 2000000 in
/-- C8 counterexample: on `tieSample` the javascript and typescript
families tie at the maximum score 2, yet the detector reports
`"javascript"` (the first family in table order), not `null`. -/
theorem c8_counterexample :
    detectLanguage tieSample.data = some "javascript" ∧
    (scores tieSample.data).lookup "javascript" = some 2 ∧
    (scores tieSample.data).lookup "typescript" = some 2 ∧
    maxScoreOf tieSample.data = 2 := by decide

/-- The initial accumulator never exceeds the score fold. -/
theorem foldl_max_init_le (l : List (String × Nat)) (a : Nat) :
    a ≤ l.foldl (fun m q => Nat.max m q.2) a := by
  induction l generalizing a with
  | nil => simp
  | cons q l ih =>
    exact le_trans (Nat.le_max_left a q.2) (ih (Nat.max a q.2))

/-- Every listed score is bounded by the score fold. -/
theorem foldl_max_le_of_mem (l : List (String × Nat)) (a : Nat) :
    ∀ p ∈ l, p.2 ≤ l.foldl (fun m q => Nat.max m q.2) a := by
  induction l generalizing a with
  | nil => simp
  | cons q l ih =>
    intro p hp
    rcases List.mem_cons.mp hp with hp | hp
    · subst hp
      exact le_trans (Nat.le_max_right a p.2) (foldl_max_init_le l (Nat.max a p.2))
    · exact ih (Nat.max a q.2) p hp

/-- The score fold is either the initial accumulator or attained by some
listed score. -/
theorem foldl_max_attained (l : List (String × Nat)) (a : Nat) :
    l.foldl (fun m q => Nat.max m q.2) a = a ∨
      ∃ p ∈ l, p.2 = l.foldl (fun m q => Nat.max m q.2) a := by
  induction l generalizing a with
  | nil => simp
  | cons q l ih =>
    rcases ih (Nat.max a q.2) with h | h
    · rcases Nat.le_total q.2 a with hle | hle
      · left
        simpa [Nat.max_eq_left hle] using h
      · right
        exact ⟨q, List.mem_cons_self q l, (by simpa [Nat.max_eq_right hle] using h : _ = q.2).symm⟩
    · rcases h with ⟨p, hp, he⟩
      exact Or.inr ⟨p, List.mem_cons_of_mem q hp, he⟩

/-- A successful linear search splits its list at the first hit: nothing
before the returned element satisfies the predicate. -/
theorem find?_first_split {α : Type} (p : α → Bool) (l : List α) (a : α)
    (h : l.find? p = some a) :
    ∃ pre post, l = pre ++ a :: post ∧ ∀ x ∈ pre, p x = false := by
  induction l with
  | nil => cases h
  | cons b rest ih =>
    by_cases hb : p b = true
    · rw [List.find?_cons_of_pos rest hb] at h
      obtain rfl : b = a := by injection h
      exact ⟨[], rest, rfl, by simp⟩
    · rw [List.find?_cons_of_neg rest hb] at h
      obtain ⟨pre, post, he, hp⟩ := ih h
      refine ⟨b :: pre, post, by rw [he]; rfl, ?_⟩
      intro x hx
      rcases List.mem_cons.mp hx with hx | hx
      · subst hx
        simpa using hb
      · exact hp x hx

/-- C8 (amended): for every input, the detector reports `null` exactly
when the best signature-match count is below 2; when it reports a
language, that language is the *first* family in table order attaining
the maximum — its score is the maximum, the maximum is at least 2, and
every family listed before it scores strictly off the maximum — not
necessarily a strict maximum (ties do not yield `null`; see the
counterexample). -/
theorem c8_language_choice (code : List Char) :
    (detectLanguage code = none ↔ maxScoreOf code < 2) ∧
    (∀ l, detectLanguage code = some l →
      (l, maxScoreOf code) ∈ scores code ∧ 2 ≤ maxScoreOf code) ∧
    (∀ l, detectLanguage code = some l →
      ∃ pre post, scores code = pre ++ ((l, maxScoreOf code) :: post) ∧
        ∀ p ∈ pre, p.2 ≠ maxScoreOf code) ∧
    (∀ p ∈ scores code, p.2 ≤ maxScoreOf code) := by
  refine ⟨⟨?_, ?_⟩, ?_, ?_, ?_⟩
  · intro h
    by_contra hlt
    push_neg at hlt
    have hne : maxScoreOf code ≠ 0 := by omega
    have hatt : ∃ p ∈ scores code, p.2 = maxScoreOf code := by
      rcases foldl_max_attained (scores code) 0 with h0 | h0
      · exact absurd h0 hne
      · exact h0
    rcases hatt with ⟨p, hp, he⟩
    have hfind : (scores code).find? (fun q => q.2 == maxScoreOf code) ≠ none := by
      intro hn
      exact absurd (by simpa using he) (by simpa using List.find?_eq_none.mp hn p hp)
    rcases Option.ne_none_iff_exists'.mp hfind with ⟨q, hq⟩
    unfold detectLanguage at h
    rw [if_neg (by omega)] at h
    rw [hq] at h
    exact Option.noConfusion h
  · intro h
    unfold detectLanguage
    rw [if_pos h]
  · intro l hl
    unfold detectLanguage at hl
    by_cases hmax : maxScoreOf code < 2
    · rw [if_pos hmax] at hl
      exact Option.noConfusion hl
    · rw [if_neg hmax] at hl
      cases hfind : (scores code).find? (fun q => q.2 == maxScoreOf code) with
      | none =>
        rw [hfind] at hl
        exact Option.noConfusion hl
      | some q =>
        rw [hfind] at hl
        have hq1 : q.1 = l := by
          simpa using hl
        have hq2 : q.2 = maxScoreOf code := by
          simpa using List.find?_some hfind
        have hqmem : q ∈ scores code := List.mem_of_find?_eq_some hfind
        refine ⟨?_, by omega⟩
        rw [← hq1, ← hq2]
        exact hqmem
  · intro l hl
    unfold detectLanguage at hl
    by_cases hmax : maxScoreOf code < 2
    · rw [if_pos hmax] at hl
      exact Option.noConfusion hl
    · rw [if_neg hmax] at hl
      cases hfind : (scores code).find? (fun q => q.2 == maxScoreOf code) with
      | none =>
        rw [hfind] at hl
        exact Option.noConfusion hl
      | some q =>
        rw [hfind] at hl
        have hq1 : q.1 = l := by
          simpa using hl
        have hq2 : q.2 = maxScoreOf code := by
          simpa using List.find?_some hfind
        obtain ⟨pre, post, he, hp⟩ := find?_first_split _ _ _ hfind
        refine ⟨pre, post, ?_, ?_⟩
        · rw [he]
          congr 1
          rw [← hq1, ← hq2]
        · intro p hpre
          have := hp p hpre
          simpa using this
  · intro p hp
    exact foldl_max_le_of_mem (scores code) 0 p hp

set_option maxHeartbeats 2000000 in
/-- Witness for C8 at the tie sample. -/
theorem c8_witness :
    ("javascript", maxScoreOf tieSample.data) ∈ scores tieSample.data ∧
      2 ≤ maxScoreOf tieSample.data :=
  (c8_language_choice tieSample.data).2.1 "javascript" (by decide)

/-- Lookup after `storageSet` at the written key. -/
theorem storageGet_set_self (st : LocalStorage) (k : String) (v : StoredValue) :
    storageGet (storageSet st k v) k = some v := by
  simp [storageSet, storageGet]

/-- Lookup in a key-deleted store at a different key. -/
theorem storageGet_filter_out (st : LocalStorage) (k k' : String) (h : k' ≠ k) :
    storageGet (st.filter fun kv => !(kv.1 == k)) k' = storageGet st k' := by
  induction st with
  | nil => rfl
  | cons a rest ih =>
    rcases a with ⟨ka, va⟩
    by_cases hka : (ka == k) = true
    · have hk' : (k' == ka) = false := by
        rw [beq_eq_false_iff_ne]
        intro hc
        exact h (hc.trans (eq_of_beq hka))
      simp [List.filter_cons, hka, storageGet, hk', ih]
    · by_cases h2 : (k' == ka) = true
      · simp [List.filter_cons, hka, storageGet, h2]
      · simp [List.filter_cons, hka, storageGet, h2, ih]

/-- The lookup equation on a non-empty store. -/
theorem storageGet_cons (ka : String) (va : StoredValue) (rest : LocalStorage)
    (k : String) :
    storageGet ((ka, va) :: rest) k =
      if (k == ka) = true then some va else storageGet rest k := rfl

/-- Lookup after `storageSet` at a different key. -/
theorem storageGet_set_ne (st : LocalStorage) (k k' : String) (v : StoredValue)
    (h : k' ≠ k) :
    storageGet (storageSet st k v) k' = storageGet st k' := by
  unfold storageSet
  rw [storageGet_cons, if_neg (by simp [h])]
  exact storageGet_filter_out st k k' h

/-- Removing keys other than `k` does not change the lookup of `k`. -/
theorem storageGet_remove_not_mem (st : LocalStorage) (keys : List String)
    (k : String) (h : k ∉ keys) :
    storageGet (storageRemove st keys) k = storageGet st k := by
  induction st with
  | nil => rfl
  | cons a rest ih =>
    rcases a with ⟨ka, va⟩
    simp only [storageRemove, List.filter_cons] at ih ⊢
    by_cases hc : keys.contains ka = true
    · have hk : (k == ka) = false := by
        rw [beq_eq_false_iff_ne]
        intro hce
        subst hce
        exact h (List.elem_iff.mp hc)
      rw [if_neg (by rw [hc]; decide), storageGet_cons, if_neg (by simp [hk])]
      exact ih
    · have hcf : keys.contains ka = false := by simpa using hc
      rw [if_pos (by rw [hcf]; decide), storageGet_cons, storageGet_cons]
      by_cases hk : (k == ka) = true
      · rw [if_pos hk, if_pos hk]
      · rw [if_neg hk, if_neg hk]
        exact ih

/-- After writing key `k`, every `k`-binding of the store carries the
written value. -/
theorem storageSet_key_value (st : LocalStorage) (k : String) (v w : StoredValue)
    (hw : (k, w) ∈ storageSet st k v) : w = v := by
  unfold storageSet at hw
  rcases List.mem_cons.mp hw with h | h
  · exact congrArg Prod.snd h
  · have := (List.mem_filter.mp h).2
    simp at this

/-- Immediately after a save, the raw cache read at the same source text
returns the entry just written (the eviction sweep run by the save
cannot remove it, since its age at that moment is zero). -/
theorem getTranslationCache_after_save (st : LocalStorage) (now : Int) (t u : String) :
    getTranslationCache (saveTranslationCache st now t u) t =
      some ⟨t, u, now⟩ := by
  unfold saveTranslationCache getTranslationCache manageCache
  have hnotin : ("cache_" ++ hashString t) ∉
      (((storageSet st ("cache_" ++ hashString t)
        (.cacheEntry ⟨t, u, now⟩)).filter (shouldEvict now)).map Prod.fst) := by
    intro hmem
    obtain ⟨⟨k1, v1⟩, hkv, hfst⟩ := List.mem_map.mp hmem
    simp only at hfst
    subst hfst
    have h1 := List.mem_filter.mp hkv
    have hv := storageSet_key_value st _ _ _ h1.1
    have h2 := h1.2
    rw [hv] at h2
    simp [shouldEvict, sub_self] at h2
  rw [storageGet_remove_not_mem _ _ _ hnotin, storageGet_set_self]

/-- C5: for every prior store, source text `t`, translation `u`, clocks
and TTL setting, a fresh cache read (`getTranslationCache` composed
with `isCacheValid`, as the translation flow performs it) immediately
after `saveTranslationCache(t, u)` returns `u` while the elapsed time
is within the short TTL, returns `null` once the TTL has elapsed, and
returns `null` when no entry exists for `t`'s fingerprint. -/
theorem c5_cache_roundtrip (st : LocalStorage) (t u : String)
    (now now2 expirationMinutes : Int) :
    (now2 - now < expirationMinutes * 60 * 1000 →
      getFreshTranslation (saveTranslationCache st now t u) now2 expirationMinutes t =
        some u) ∧
    (expirationMinutes * 60 * 1000 ≤ now2 - now →
      getFreshTranslation (saveTranslationCache st now t u) now2 expirationMinutes t =
        none) ∧
    (getTranslationCache st t = none →
      getFreshTranslation st now2 expirationMinutes t = none) := by
  have hget := getTranslationCache_after_save st now t u
  refine ⟨?_, ?_, ?_⟩
  · intro h
    unfold getFreshTranslation
    rw [hget]
    simp [isCacheValid, h]
  · intro h
    have hv : isCacheValid now2 (some ⟨t, u, now⟩) expirationMinutes = false := by
      simp only [isCacheValid, decide_eq_false_iff_not, not_lt]
      omega
    unfold getFreshTranslation
    rw [hget]
    simp [hv]
  · intro h
    unfold getFreshTranslation
    rw [h]

/-- Witness for C5 at a concrete store, text, translation and clocks. -/
theorem c5_witness :
    getFreshTranslation (saveTranslationCache [] 0 "hello" "world") 1 5 "hello" =
      some "world" :=
  (c5_cache_roundtrip [] "hello" "world" 0 1 5).1 (by decide)

/-- C6 counterexample: a cache entry stored with timestamp `0` is older
than the 7-day window at clock `604800001`, yet `manageCache` leaves
the store unchanged, because the JS truthiness test `value.timestamp`
rejects the entry before its age is examined. -/
theorem c6_counterexample :
    manageCache zeroTsStore 604800001 = zeroTsStore ∧
      (7 * 24 * 60 * 60 * 1000 : Int) < 604800001 - 0 := by decide

/-- With unique keys, two bindings of the same key in a store carry the
same value. -/
theorem key_unique_of_nodup (st : LocalStorage)
    (hnd : (st.map Prod.fst).Nodup) {k : String} {a b : StoredValue}
    (ha : (k, a) ∈ st) (hb : (k, b) ∈ st) : a = b := by
  induction st with
  | nil => cases ha
  | cons x rest ih =>
    rw [List.map_cons] at hnd
    have hnd' := List.nodup_cons.mp hnd
    rcases List.mem_cons.mp ha with ha' | ha' <;> rcases List.mem_cons.mp hb with hb' | hb'
    · exact congrArg Prod.snd (ha'.trans hb'.symm)
    · exfalso
      apply hnd'.1
      rw [← ha']
      exact List.mem_map.mpr ⟨(k, b), hb', rfl⟩
    · exfalso
      apply hnd'.1
      rw [← hb']
      exact List.mem_map.mpr ⟨(k, a), ha', rfl⟩
    · exact ih hnd'.2 ha' hb'

/-- C6 (amended): on a store with unique keys, the eviction sweep removes
exactly those entries it classifies as expired cache entries — key
prefixed `cache_`, nonzero stored timestamp, and age strictly over
7 days — and leaves every other entry (fresh or short-TTL-stale cache
entries, zero-timestamp cache entries, page contexts, the recent-pages
list) in place, in order.  The unamended claim — removal of every cache
entry whose age exceeds the window — fails on zero timestamps, see the
counterexample. -/
theorem c6_evict_exact (st : LocalStorage) (now : Int)
    (hnd : (st.map Prod.fst).Nodup) :
    manageCache st now = st.filter fun kv => !(shouldEvict now kv) := by
  unfold manageCache storageRemove
  apply List.filter_congr
  intro kv hkv
  congr 1
  by_cases he : shouldEvict now kv = true
  · rw [he]
    exact contains_true_of_mem (List.mem_map.mpr ⟨kv, List.mem_filter.mpr ⟨hkv, he⟩, rfl⟩)
  · have he' : shouldEvict now kv = false := by simpa using he
    rw [he']
    apply contains_false_of_not_mem
    intro hc
    obtain ⟨⟨k1, v1⟩, hkv', hfst⟩ := List.mem_map.mp hc
    simp only at hfst
    have h1 := List.mem_filter.mp hkv'
    have hmem1 : (kv.1, v1) ∈ st := by
      rw [← hfst]
      exact h1.1
    have hmem2 : (kv.1, kv.2) ∈ st := by
      simpa using hkv
    have hv : v1 = kv.2 := key_unique_of_nodup st hnd hmem1 hmem2
    have h2 := h1.2
    rw [hfst, hv] at h2
    simp only [Prod.mk.eta] at h2
    exact he h2

/-- Witness for C6: the week-old cache entry of `mixedStore` is removed
and the recent-pages entry survives. -/
theorem c6_witness :
    manageCache mixedStore 604800002 = [("recentPages", .recentList ["u"])] := by
  rw [c6_evict_exact mixedStore 604800002 (by decide)]
  decide

/-- A page key never collides with the recent-pages key. -/
theorem pageKey_ne (url : String) : ("page_" ++ url) ≠ "recentPages" := by
  intro h
  have h2 : ("page_" ++ url).data = "recentPages".data := by rw [h]
  have h4 : (['p', 'a', 'g', 'e', '_'] ++ url.data : List Char) =
      ['r', 'e', 'c', 'e', 'n', 't', 'P', 'a', 'g', 'e', 's'] := h2
  simp at h4

/-- Reading the recent-pages list straight after writing it. -/
theorem getRecentPages_set_recent (st : LocalStorage) (pages : List String) :
    getRecentPages (storageSet st "recentPages" (.recentList pages)) = pages := by
  unfold getRecentPages
  rw [storageGet_set_self]

/-- Writing a page context does not disturb the recent-pages list. -/
theorem getRecentPages_set_page (st : LocalStorage) (u : String) (v : StoredValue) :
    getRecentPages (storageSet st ("page_" ++ u) v) = getRecentPages st := by
  unfold getRecentPages
  rw [storageGet_set_ne st ("page_" ++ u) "recentPages" v (Ne.symm (pageKey_ne u))]

/-- C9 counterexample: `savePageContext` persists the context exactly as
given — it consults no clock — so a context saved with the stale
`lastUpdated = 5` is stored with `lastUpdated = 5`, not refreshed to a
current time such as `100`. -/
theorem c9_counterexample :
    storageGet (savePageContext [] sampleContext) ("page_" ++ "u") =
      some (.pageCtx sampleContext) ∧
    sampleContext.lastUpdated = 5 ∧ (5 : Int) ≠ 100 := by decide

/-- C9 (amended): the Context Store save persists the context exactly as
given (`lastUpdated` is refreshed by the content-script caller before
invoking save, and the chat flow saves without refreshing it at all),
and rebuilds the recently-used list by pushing the saved URL to the
front, removing its duplicate and truncating to ten entries — so with
ten documents tracked, saving an eleventh evicts the least-recently-used
identifier, never the new one. -/
theorem c9_save_behavior (st : LocalStorage) (context : PageContext) :
    storageGet (savePageContext st context) ("page_" ++ context.url) =
      some (.pageCtx context) ∧
    getRecentPages (savePageContext st context) =
      (context.url :: (getRecentPages st).filter fun url => !(url == context.url)).take 10 ∧
    (getRecentPages (savePageContext st context)).length ≤ 10 ∧
    (getRecentPages (savePageContext st context)).head? = some context.url ∧
    (∀ l, getRecentPages st = l → l.length = 10 → context.url ∉ l →
      getRecentPages (savePageContext st context) = context.url :: l.take 9) := by
  have hdef : savePageContext st context =
      storageSet (storageSet st ("page_" ++ context.url) (.pageCtx context))
        "recentPages"
        (.recentList ((context.url ::
          (getRecentPages (storageSet st ("page_" ++ context.url)
            (.pageCtx context))).filter fun url => !(url == context.url)).take 10)) := rfl
  have h1 : storageGet (savePageContext st context) ("page_" ++ context.url) =
      some (.pageCtx context) := by
    rw [hdef, storageGet_set_ne _ _ _ _ (pageKey_ne context.url), storageGet_set_self]
  have h2 : getRecentPages (savePageContext st context) =
      (context.url :: (getRecentPages st).filter fun url => !(url == context.url)).take 10 := by
    rw [hdef, getRecentPages_set_recent, getRecentPages_set_page]
  refine ⟨h1, h2, ?_, ?_, ?_⟩
  · rw [h2]
    simp [List.length_take]
  · rw [h2]
    rfl
  · intro l hl h10 hurl
    rw [h2, hl]
    have hf : l.filter (fun url => !(url == context.url)) = l := by
      apply List.filter_eq_self.mpr
      intro a ha
      simp only [Bool.not_eq_eq_eq_not, Bool.not_true, beq_eq_false_iff_ne]
      intro hc
      subst hc
      exact hurl ha
    rw [hf]
    rfl

/-- Witness for C9: saving an eleventh document when ten are tracked
keeps the new URL at the front and drops only the tenth. -/
theorem c9_witness :
    getRecentPages (savePageContext tenPageStore sampleContext11) =
      "u11" :: ["u1", "u2", "u3", "u4", "u5", "u6", "u7", "u8", "u9", "u10"].take 9 :=
  (c9_save_behavior tenPageStore sampleContext11).2.2.2.2
    ["u1", "u2", "u3", "u4", "u5", "u6", "u7", "u8", "u9", "u10"]
    (by decide) (by decide) (by decide)

/-- C10 counterexample: `TranslationEngine.translateText` has no
empty-input guard, so on an empty cache it sends the empty string to
the completion backend and returns the backend's output instead of the
input. -/
theorem c10_counterexample :
    (teTranslateText (fun _ => "T") [] 0 5 "").2.1 = [""] ∧
    (teTranslateText (fun _ => "T") [] 0 5 "").1 = "T" := by decide

/-- C10 (amended): `ApiClient.translateText` — the revision with the
`!text || text.trim().length === 0` guard — returns every empty or
whitespace-only input unchanged and makes no completion-backend call;
the `TranslationEngine` revision lacks the guard and does call the
backend on such input (see the counterexample). -/
theorem c10_empty_input (backend : String → String) (text : String)
    (h : text.data.all isJsWs = true) :
    apiClientTranslateText backend text = (text, []) := by
  unfold apiClientTranslateText
  rw [if_pos h]

/-- Witness for C10 at the empty string. -/
theorem c10_witness :
    apiClientTranslateText (fun _ => "T") "" = ("", []) :=
  c10_empty_input (fun _ => "T") "" (by decide)
